import Mathlib

/-!
# Verification of the clacheless replication core

Shallow embedding of the replication and anti-entropy engine of the
`clacheless` distributed in-memory cache, together with proofs about its
specification.  Each definition is translated from the Rust source file
named in its doc comment.  Machine integers (`u64`) are modelled as `Nat`
with explicit reduction modulo `2 ^ 64` at the operations where overflow
can occur; maps (`HashMap`, `SkipMap`) are modelled as association lists.
-/

namespace Clacheless

/-- Size of the `u64` value space. -/
def U64_LIMIT : Nat := 2 ^ 64

/-! ## NodeView (src/distributed_cache/cluster_view/node_view.rs) -/

/-- State behind the mutex of `NodeView`: latest known sequence number of a
remote node and how far the local node has synchronized
(`node_view.rs`, struct `KnownSequences`, `#[derive(Default)]` gives
`(0, 0)`). -/
structure KnownSequences where
  /-- Known baseline sequence number where the local node has received all
  available updates from the remote. -/
  baseline_seq : Nat
  /-- Latest known sequence number of the remote node. -/
  latest_seq : Nat
deriving Repr, DecidableEq

/-- The default state `(baseline_seq, latest_seq) = (0, 0)`. -/
def KnownSequences.init : KnownSequences := ⟨0, 0⟩

/-- `NodeView::update` (`node_view.rs` lines 49-59): set
`latest_seq = new_sequence`; if `baseline_seq + 1 == latest_seq` (a `u64`
addition, hence reduced mod `2 ^ 64`) advance `baseline_seq` and return
`true`, else return `false`. -/
def NodeView.update (s : KnownSequences) (new_sequence : Nat) :
    KnownSequences × Bool :=
  if (s.baseline_seq + 1) % U64_LIMIT = new_sequence then
    (⟨new_sequence, new_sequence⟩, true)
  else
    (⟨s.baseline_seq, new_sequence⟩, false)

/-- Apply a sequence of `NodeView::update` calls, in order, discarding the
returned booleans. -/
def NodeView.updates (s : KnownSequences) (ns : List Nat) : KnownSequences :=
  ns.foldl (fun st n => (NodeView.update st n).1) s

/-- The baseline transition of one `update` call, in the `u64` model. -/
def nvStep (b n : Nat) : Nat := if (b + 1) % U64_LIMIT = n then n else b

/-- The baseline transition of one `update` call, without the `u64`
wrap-around (they agree for positive in-range sequence numbers, see
`nvStep_eq_pureStep`). -/
def pureStep (b n : Nat) : Nat := if b + 1 = n then n else b

theorem update_fst_baseline (s : KnownSequences) (n : Nat) :
    ((NodeView.update s n).1).baseline_seq = nvStep s.baseline_seq n := by
  simp only [NodeView.update, nvStep]
  split <;> rfl

theorem updates_baseline (s : KnownSequences) (ns : List Nat) :
    (NodeView.updates s ns).baseline_seq = ns.foldl nvStep s.baseline_seq := by
  induction ns generalizing s with
  | nil => rfl
  | cons n ns ih =>
      simp only [NodeView.updates, List.foldl_cons] at *
      rw [ih, update_fst_baseline]

theorem nvStep_eq_pureStep {b n : Nat} (hb : b < U64_LIMIT) (hn1 : 1 ≤ n)
    (hn2 : n < U64_LIMIT) : nvStep b n = pureStep b n := by
  unfold nvStep pureStep
  rcases Nat.lt_or_ge (b + 1) U64_LIMIT with h | h
  · rw [Nat.mod_eq_of_lt h]
  · have hbe : b + 1 = U64_LIMIT := le_antisymm (by omega) h
    rw [hbe, Nat.mod_self, if_neg (by omega), if_neg (by omega)]

theorem pureStep_le (b n : Nat) : b ≤ pureStep b n := by
  unfold pureStep; split <;> omega

theorem pureFold_le (ns : List Nat) (b : Nat) : b ≤ ns.foldl pureStep b := by
  induction ns generalizing b with
  | nil => exact le_refl b
  | cons n ns ih => exact le_trans (pureStep_le b n) (ih _)

theorem pureStep_mono {b b' : Nat} (h : b ≤ b') (n : Nat) :
    pureStep b n ≤ pureStep b' n := by
  unfold pureStep
  split <;> split <;> omega

theorem pureFold_mono (ns : List Nat) {b b' : Nat} (h : b ≤ b') :
    ns.foldl pureStep b ≤ ns.foldl pureStep b' := by
  induction ns generalizing b b' with
  | nil => simpa
  | cons n ns ih => exact ih (pureStep_mono h n)

theorem le_pureFold_of_sublist (ns : List Nat) :
    ∀ b m, (List.range' (b + 1) m).Sublist ns → b + m ≤ ns.foldl pureStep b := by
  induction ns with
  | nil =>
      intro b m h
      rw [List.sublist_nil, List.range'_eq_nil] at h
      simp [h]
  | cons n ns ih =>
      intro b m h
      cases m with
      | zero =>
          have := pureFold_le (n :: ns) b
          omega
      | succ m =>
          rw [List.range'_succ] at h
          rw [List.foldl_cons]
          cases h with
          | cons _ h' =>
              have h2 : (List.range' (b + 1) (m + 1)).Sublist ns := by
                rw [List.range'_succ]; exact h'
              have h3 := ih b (m + 1) h2
              have h4 := pureFold_mono ns (pureStep_le b n)
              omega
          | cons₂ _ h' =>
              have hstep : pureStep b (b + 1) = b + 1 := by
                unfold pureStep; simp
              rw [hstep]
              have h3 := ih (b + 1) m h'
              omega

theorem range'_pureFold_sublist (ns : List Nat) :
    ∀ b, (List.range' (b + 1) (ns.foldl pureStep b - b)).Sublist ns := by
  induction ns with
  | nil => intro b; simp
  | cons n ns ih =>
      intro b
      rw [List.foldl_cons]
      by_cases hn : b + 1 = n
      · subst hn
        have hstep : pureStep b (b + 1) = b + 1 := by unfold pureStep; simp
        rw [hstep]
        have hge : b + 1 ≤ ns.foldl pureStep (b + 1) := pureFold_le ns (b + 1)
        have hrw : ns.foldl pureStep (b + 1) - b =
            (ns.foldl pureStep (b + 1) - (b + 1)) + 1 := by omega
        rw [hrw, List.range'_succ]
        exact List.Sublist.cons₂ _ (ih (b + 1))
      · have hstep : pureStep b n = b := by unfold pureStep; simp [hn]
        rw [hstep]
        exact List.Sublist.cons _ (ih b)

theorem nvFold_eq_pureFold (ns : List Nat)
    (hns : ∀ n ∈ ns, 1 ≤ n ∧ n < U64_LIMIT) :
    ∀ b, b < U64_LIMIT → ns.foldl nvStep b = ns.foldl pureStep b := by
  induction ns with
  | nil => intro b _; rfl
  | cons n ns ih =>
      intro b hb
      have hn := hns n (by simp)
      rw [List.foldl_cons, List.foldl_cons, nvStep_eq_pureStep hb hn.1 hn.2]
      refine ih (fun m hm => hns m (List.mem_cons_of_mem _ hm)) _ ?_
      unfold pureStep
      split
      · exact hn.2
      · exact hb

theorem update_fst_latest (s : KnownSequences) (n : Nat) :
    ((NodeView.update s n).1).latest_seq = n := by
  unfold NodeView.update
  split <;> rfl

theorem updates_cons (s : KnownSequences) (n : Nat) (ns : List Nat) :
    NodeView.updates s (n :: ns) = NodeView.updates (NodeView.update s n).1 ns :=
  rfl

/-- C1: the claim asserts `baseline_seq <= latest_seq` after an arbitrary
sequence of updates.  This fails: after `update 1` the baseline is `1`, and a
subsequent `update 0` regresses `latest_seq` to `0` while leaving
`baseline_seq` at `1`. -/
theorem nodeView_invariant_counterexample :
    ¬ ((NodeView.updates KnownSequences.init [1, 0]).baseline_seq ≤
        (NodeView.updates KnownSequences.init [1, 0]).latest_seq) := by
  decide

/-- C1 (amended): starting from the default state `(0, 0)`, after any finite
sequence of `update` calls in which the last supplied value is at least the
baseline reached by the preceding updates, `baseline_seq ≤ latest_seq` holds
(the empty sequence included).  This admits out-of-order deliveries such as
`[1, 3, 2]`; only a final value below the already-accumulated baseline — as
in the counterexample `[1, 0]` — breaks the invariant. -/
theorem nodeView_baseline_le_latest_of_last_ge (ns : List Nat)
    (h : (NodeView.updates KnownSequences.init ns.dropLast).baseline_seq ≤
      ns.getLastD 0) :
    (NodeView.updates KnownSequences.init ns).baseline_seq ≤
      (NodeView.updates KnownSequences.init ns).latest_seq := by
  rcases List.eq_nil_or_concat ns with hnil | ⟨ms, n, hcat⟩
  · subst hnil
    exact le_refl 0
  · rw [List.concat_eq_append] at hcat
    subst hcat
    rw [List.dropLast_concat, List.getLastD_concat] at h
    have hsplit : NodeView.updates KnownSequences.init (ms ++ [n]) =
        (NodeView.update (NodeView.updates KnownSequences.init ms) n).1 := by
      unfold NodeView.updates
      rw [List.foldl_append, List.foldl_cons, List.foldl_nil]
    rw [hsplit, update_fst_latest]
    unfold NodeView.update
    split
    · exact le_refl n
    · exact h

/-- Witness for `nodeView_baseline_le_latest_of_last_ge` at the out-of-order
update sequence `[1, 3, 2]`: the preceding baseline is `1 ≤ 2`, and the final
state is `(2, 2)`. -/
theorem nodeView_baseline_le_latest_witness :
    (NodeView.updates KnownSequences.init [1, 3, 2]).baseline_seq ≤
      (NodeView.updates KnownSequences.init [1, 3, 2]).latest_seq :=
  nodeView_baseline_le_latest_of_last_ge [1, 3, 2] (by decide)

/-- C2: the claim asserts that after supplying `1`, `3`, `2` the baseline is
`3` (the largest `b` with every value in `1..=b` supplied).  This fails: the
code only advances the baseline on an exact successor, so after `1, 3, 2` the
baseline is `2`, not `3`. -/
theorem nodeView_baseline_after_1_3_2 :
    (NodeView.updates KnownSequences.init [1, 3, 2]).baseline_seq = 2 ∧
      (NodeView.updates KnownSequences.init [1, 3, 2]).baseline_seq ≠ 3 := by
  constructor <;> decide

/-- C2 (amended): starting from the default state, after applying
`update n_1, ..., update n_k` where every `n_i` is a positive `u64` value,
`baseline_seq` equals the largest `b` such that `1, 2, ..., b` occurs *in
order* (as a subsequence) among `n_1, ..., n_k`; stated as: the chain
`1, ..., b` is a subsequence of the updates iff `b ≤ baseline_seq`.  In
particular after supplying `1`, `3`, `2` the baseline is `2`. -/
theorem nodeView_baseline_eq_greatest_chain (ns : List Nat)
    (hns : ∀ n ∈ ns, 1 ≤ n ∧ n < U64_LIMIT) (b : Nat) :
    ((List.range' 1 b).Sublist ns ↔
      b ≤ (NodeView.updates KnownSequences.init ns).baseline_seq) ∧
      (NodeView.updates KnownSequences.init [1, 3, 2]).baseline_seq = 2 := by
  refine ⟨?_, by decide⟩
  have hinit : (KnownSequences.init).baseline_seq = 0 := rfl
  rw [updates_baseline, hinit, nvFold_eq_pureFold ns hns 0 (by unfold U64_LIMIT; positivity)]
  constructor
  · intro h
    have h1 := le_pureFold_of_sublist ns 0 b (by simpa using h)
    omega
  · intro h
    have hchain := range'_pureFold_sublist ns 0
    refine List.Sublist.trans ?_ (by simpa using hchain)
    exact List.range'_sublist_right.mpr (by omega)

/-- Witness for `nodeView_baseline_eq_greatest_chain` at the concrete update
sequence `[1, 3, 2]` and `b = 2`. -/
theorem nodeView_baseline_eq_greatest_chain_witness :
    ((List.range' 1 2).Sublist [1, 3, 2] ↔
      2 ≤ (NodeView.updates KnownSequences.init [1, 3, 2]).baseline_seq) ∧
      (NodeView.updates KnownSequences.init [1, 3, 2]).baseline_seq = 2 :=
  nodeView_baseline_eq_greatest_chain [1, 3, 2] (by decide) 2

/-! ## Errors (src/error.rs) and the local cache (src/distributed_cache/local_cache.rs) -/

/-- Error categories of the crate (`ClachelessErrorKind`). -/
inductive ClachelessErrorKind where
  | NotFound
  | Malformed
  | Connection
  | Unspecified
deriving Repr, DecidableEq

/-- An error: a kind together with its message (`ClachelessError`). -/
structure ClachelessError where
  kind : ClachelessErrorKind
  msg : String
deriving Repr, DecidableEq

/-- `ClachelessErrorKind::error_with_msg`. -/
def ClachelessErrorKind.error_with_msg (k : ClachelessErrorKind) (msg : String) :
    ClachelessError :=
  ⟨k, msg⟩

/-- Cached object and meta data (`local_cache.rs`, struct `CacheEntry`).
Bytes are modelled as lists of naturals. -/
structure CacheEntry where
  /-- Time the cache entry was first received at one of the cluster nodes. -/
  this_update_micros : Nat
  /-- Node identifier where the cache entry was first received. -/
  origin_node_id : Nat
  /-- The unique sequence number for the cache entry on the node where it was
  first received. -/
  origin_node_update_seq : Nat
  /-- Expiration date of the cache entry in epoch microseconds. -/
  expires_micros : Nat
  /-- Raw bytes of the cached object. -/
  object_bytes : List Nat
deriving Repr, DecidableEq

/-- A `CacheEntry` and the cached item's lookup key
(`local_cache.rs`, struct `CacheEntryAndKey`). -/
structure CacheEntryAndKey where
  key : String
  ce : CacheEntry
deriving Repr, DecidableEq

/-- The `SkipMap<String, Arc<CacheEntry>>` inside `LocalCache`, modelled as an
association list whose keys are unique. -/
abbrev LocalCache := List (String × CacheEntry)

/-- Lookup in an association list (the model of `SkipMap::get` and
`HashMap::get`). -/
def mapLookup {α β : Type} [DecidableEq α] (k : α) : List (α × β) → Option β
  | [] => none
  | p :: rest => if p.1 = k then some p.2 else mapLookup k rest

/-- `SkipMap::compare_insert` as used by `LocalCache::put`: insert the entry
if the key is absent; if present, replace the incumbent iff
`old.this_update_micros < new.this_update_micros`. -/
def compareInsert (c : LocalCache) (k : String) (e : CacheEntry) : LocalCache :=
  match c with
  | [] => [(k, e)]
  | p :: rest =>
      if p.1 = k then
        if p.2.this_update_micros < e.this_update_micros then
          (k, e) :: rest
        else
          p :: rest
      else
        p :: compareInsert rest k e

/-- `LocalCache::put` (`local_cache.rs` lines 146-167): a `compare_insert`
followed by an unconditional `Ok(())`; modelled in state-passing style as
returning the new cache state. -/
def LocalCache.put (c : LocalCache) (cache_key : String) (cache_value : List Nat)
    (this_update_micros origin_node_id origin_node_update_seq expires_micros : Nat) :
    Except ClachelessError LocalCache :=
  Except.ok (compareInsert c cache_key
    ⟨this_update_micros, origin_node_id, origin_node_update_seq, expires_micros,
      cache_value⟩)

/-- `LocalCache::get` (`local_cache.rs` lines 133-143): return the entry's
bytes iff the key is present and `expires_micros >= now`, else a `NotFound`
error. -/
def LocalCache.get (c : LocalCache) (cache_key : String) (now : Nat) :
    Except ClachelessError (List Nat) :=
  match mapLookup cache_key c with
  | some cde =>
      if cde.expires_micros ≥ now then
        Except.ok cde.object_bytes
      else
        Except.error (ClachelessErrorKind.NotFound.error_with_msg
          ("No entry for " ++ cache_key ++ "."))
  | none =>
      Except.error (ClachelessErrorKind.NotFound.error_with_msg
        ("No entry for " ++ cache_key ++ "."))

/-- `DistributedCache::put_bytes` (`distributed_cache.rs` lines 328-355):
draws a fresh local sequence number and timestamp (passed in here), fires the
broadcast whose outcome is discarded via `.ok()`, and returns the result of
the local `LocalCache::put`. -/
def DistributedCache.put_bytes (c : LocalCache) (cache_key : String)
    (cache_value : List Nat) (local_node_id update_seq now ttl_micros : Nat) :
    Except ClachelessError LocalCache :=
  LocalCache.put c cache_key cache_value now local_node_id update_seq
    (now + ttl_micros)

theorem mapLookup_compareInsert_other (c : LocalCache) (k k' : String)
    (e : CacheEntry) (h : k' ≠ k) :
    mapLookup k' (compareInsert c k e) = mapLookup k' c := by
  induction c with
  | nil => simp [compareInsert, mapLookup, Ne.symm h]
  | cons p rest ih =>
      by_cases hp : p.1 = k
      · simp only [compareInsert, if_pos hp]
        split
        · simp [mapLookup, hp, Ne.symm h]
        · rfl
      · simp only [compareInsert, if_neg hp]
        by_cases hp' : p.1 = k'
        · simp [mapLookup, hp']
        · simp [mapLookup, hp', ih]

theorem mapLookup_compareInsert_none (c : LocalCache) (k : String)
    (e : CacheEntry) (h : mapLookup k c = none) :
    mapLookup k (compareInsert c k e) = some e := by
  induction c with
  | nil => simp [compareInsert, mapLookup]
  | cons p rest ih =>
      simp only [mapLookup] at h
      by_cases hp : p.1 = k
      · simp [hp] at h
      · simp only [if_neg hp] at h
        simp [compareInsert, mapLookup, hp, ih h]

theorem mapLookup_compareInsert_newer (c : LocalCache) (k : String)
    (e eold : CacheEntry) (h : mapLookup k c = some eold)
    (hlt : eold.this_update_micros < e.this_update_micros) :
    mapLookup k (compareInsert c k e) = some e := by
  induction c with
  | nil => simp [mapLookup] at h
  | cons p rest ih =>
      simp only [mapLookup] at h
      by_cases hp : p.1 = k
      · simp only [if_pos hp] at h
        injection h with h
        subst h
        simp [compareInsert, hp, hlt, mapLookup]
      · simp only [if_neg hp] at h
        simp [compareInsert, mapLookup, hp, ih h]

theorem compareInsert_of_stale (c : LocalCache) (k : String) (e eold : CacheEntry)
    (h : mapLookup k c = some eold)
    (hge : ¬ eold.this_update_micros < e.this_update_micros) :
    compareInsert c k e = c := by
  induction c with
  | nil => simp [mapLookup] at h
  | cons p rest ih =>
      simp only [mapLookup] at h
      by_cases hp : p.1 = k
      · simp only [if_pos hp] at h
        injection h with h
        subst h
        rw [show compareInsert (p :: rest) k e = p :: rest from by
          simp [compareInsert, hp, hge]]
      · simp only [if_neg hp] at h
        simp [compareInsert, hp, ih h]

/-- C3: `put` replaces the entry for `k` iff the new `this_update_micros` is
strictly greater than the incumbent's, otherwise the incumbent (and the whole
cache) is left intact; other keys are never touched; after two puts with
`t1 < t2`, in either order, `get` returns the later value; re-delivering an
identical put (same key and timestamp) is a no-op. -/
theorem localCache_put_lww :
    (∀ (c : LocalCache) (k k' : String) (e : CacheEntry), k' ≠ k →
        mapLookup k' (compareInsert c k e) = mapLookup k' c) ∧
    (∀ (c : LocalCache) (k : String) (e eold : CacheEntry),
        mapLookup k c = some eold →
        (eold.this_update_micros < e.this_update_micros →
            mapLookup k (compareInsert c k e) = some e) ∧
        (¬ eold.this_update_micros < e.this_update_micros →
            compareInsert c k e = c)) ∧
    (∀ (c : LocalCache) (k : String) (e eold : CacheEntry),
        mapLookup k c = some eold →
        eold.this_update_micros = e.this_update_micros →
        LocalCache.put c k e.object_bytes e.this_update_micros e.origin_node_id
            e.origin_node_update_seq e.expires_micros = Except.ok c) ∧
    (∀ (c : LocalCache) (k : String) (e1 e2 : CacheEntry) (now : Nat),
        mapLookup k c = none →
        e1.this_update_micros < e2.this_update_micros →
        now ≤ e2.expires_micros →
        LocalCache.get (compareInsert (compareInsert c k e1) k e2) k now =
            Except.ok e2.object_bytes ∧
        LocalCache.get (compareInsert (compareInsert c k e2) k e1) k now =
            Except.ok e2.object_bytes) := by
  refine ⟨fun c k k' e h => mapLookup_compareInsert_other c k k' e h, ?_, ?_, ?_⟩
  · intro c k e eold h
    exact ⟨fun hlt => mapLookup_compareInsert_newer c k e eold h hlt,
      fun hge => compareInsert_of_stale c k e eold h hge⟩
  · intro c k e eold h heq
    unfold LocalCache.put
    rw [compareInsert_of_stale c k e eold h (by omega)]
  · intro c k e1 e2 now h hlt hexp
    have h1 : mapLookup k (compareInsert c k e1) = some e1 :=
      mapLookup_compareInsert_none c k e1 h
    have h2 : mapLookup k (compareInsert (compareInsert c k e1) k e2) = some e2 :=
      mapLookup_compareInsert_newer _ k e2 e1 h1 hlt
    have h3 : mapLookup k (compareInsert c k e2) = some e2 :=
      mapLookup_compareInsert_none c k e2 h
    have h4 : compareInsert (compareInsert c k e2) k e1 = compareInsert c k e2 :=
      compareInsert_of_stale _ k e1 e2 h3 (by omega)
    constructor
    · simp [LocalCache.get, h2, hexp]
    · rw [h4]
      simp [LocalCache.get, h3, hexp]

/-- Witness for `localCache_put_lww` at concrete caches and entries. -/
theorem localCache_put_lww_witness :
    (mapLookup "a" (compareInsert [("k", (⟨1, 0, 1, 10, [1]⟩ : CacheEntry))] "k"
        ⟨2, 0, 2, 10, [2]⟩) =
      mapLookup "a" [("k", (⟨1, 0, 1, 10, [1]⟩ : CacheEntry))]) ∧
    ((1 < 2 →
        mapLookup "k" (compareInsert [("k", (⟨1, 0, 1, 10, [1]⟩ : CacheEntry))]
          "k" ⟨2, 0, 2, 10, [2]⟩) = some ⟨2, 0, 2, 10, [2]⟩) ∧
      (¬ (1 : Nat) < 2 →
        compareInsert [("k", (⟨1, 0, 1, 10, [1]⟩ : CacheEntry))] "k"
          ⟨2, 0, 2, 10, [2]⟩ = [("k", ⟨1, 0, 1, 10, [1]⟩)])) ∧
    (LocalCache.put [("k", (⟨1, 0, 1, 10, [1]⟩ : CacheEntry))] "k" [1] 1 0 1 10 =
      Except.ok [("k", ⟨1, 0, 1, 10, [1]⟩)]) ∧
    (LocalCache.get (compareInsert (compareInsert [] "k"
        (⟨1, 0, 1, 10, [1]⟩ : CacheEntry)) "k" ⟨2, 0, 2, 10, [2]⟩) "k" 5 =
      Except.ok [2] ∧
      LocalCache.get (compareInsert (compareInsert [] "k"
        (⟨2, 0, 2, 10, [2]⟩ : CacheEntry)) "k" ⟨1, 0, 1, 10, [1]⟩) "k" 5 =
      Except.ok [2]) :=
  ⟨localCache_put_lww.1 [("k", ⟨1, 0, 1, 10, [1]⟩)] "k" "a" ⟨2, 0, 2, 10, [2]⟩
      (by decide),
    localCache_put_lww.2.1 [("k", ⟨1, 0, 1, 10, [1]⟩)] "k" ⟨2, 0, 2, 10, [2]⟩
      ⟨1, 0, 1, 10, [1]⟩ (by decide),
    localCache_put_lww.2.2.1 [("k", ⟨1, 0, 1, 10, [1]⟩)] "k" ⟨1, 0, 1, 10, [1]⟩
      ⟨1, 0, 1, 10, [1]⟩ (by decide) rfl,
    localCache_put_lww.2.2.2 [] "k" ⟨1, 0, 1, 10, [1]⟩ ⟨2, 0, 2, 10, [2]⟩ 5
      rfl (by decide) (by decide)⟩

/-- C4: the claim asserts `get` returns `NotFound` whenever
`expires_micros <= now`.  This fails at `expires_micros = now`: the code keeps
entries with `expires_micros >= now`, so at the expiry instant the value is
still returned. -/
theorem localCache_get_at_expiry_counterexample :
    (⟨1, 0, 1, 5, [7]⟩ : CacheEntry).expires_micros ≤ 5 ∧
      LocalCache.get [("k", (⟨1, 0, 1, 5, [7]⟩ : CacheEntry))] "k" 5 =
        Except.ok [7] ∧
      ∀ msg : String,
        LocalCache.get [("k", (⟨1, 0, 1, 5, [7]⟩ : CacheEntry))] "k" 5 ≠
          Except.error (ClachelessErrorKind.NotFound.error_with_msg msg) := by
  refine ⟨by decide, by rfl, fun msg h => ?_⟩
  have hok : LocalCache.get [("k", (⟨1, 0, 1, 5, [7]⟩ : CacheEntry))] "k" 5 =
      Except.ok [7] := by rfl
  rw [hok] at h
  exact Except.noConfusion h

/-- C4 (amended): `get` returns the stored value iff an entry is present and
`expires_micros ≥ now` (so the value is still returned at the expiry
instant itself); whenever `expires_micros < now`, or the key is absent, `get`
returns `NotFound`. -/
theorem localCache_get_spec (c : LocalCache) (k : String) (now : Nat) :
    (∀ b : List Nat, LocalCache.get c k now = Except.ok b ↔
        ∃ e : CacheEntry, mapLookup k c = some e ∧ now ≤ e.expires_micros ∧
          b = e.object_bytes) ∧
    (∀ e : CacheEntry, mapLookup k c = some e → e.expires_micros < now →
        LocalCache.get c k now =
          Except.error (ClachelessErrorKind.NotFound.error_with_msg
            ("No entry for " ++ k ++ "."))) ∧
    (mapLookup k c = none →
        LocalCache.get c k now =
          Except.error (ClachelessErrorKind.NotFound.error_with_msg
            ("No entry for " ++ k ++ "."))) := by
  refine ⟨fun b => ?_, fun e he hexp => ?_, fun hnone => ?_⟩
  · unfold LocalCache.get
    cases hm : mapLookup k c with
    | none => simp [hm]
    | some e =>
        by_cases hexp : now ≤ e.expires_micros
        · simp only [ge_iff_le, if_pos hexp]
          constructor
          · intro hb
            injection hb with hb
            exact ⟨e, rfl, hexp, hb.symm⟩
          · rintro ⟨e', he', hexp', hb⟩
            injection he' with he'
            subst he'
            rw [hb]
        · simp only [ge_iff_le, if_neg hexp]
          constructor
          · intro hb
            exact Except.noConfusion hb
          · rintro ⟨e', he', hexp', hb⟩
            injection he' with he'
            subst he'
            exact absurd hexp' hexp
  · simp only [LocalCache.get, he]
    rw [if_neg (by omega)]
  · simp only [LocalCache.get, hnone]

/-- Witness for `localCache_get_spec`: a present, unexpired entry is returned,
and an entry strictly past expiry yields `NotFound`. -/
theorem localCache_get_spec_witness :
    LocalCache.get [("k", (⟨1, 0, 1, 10, [7]⟩ : CacheEntry))] "k" 5 =
        Except.ok [7] ∧
      LocalCache.get [("k", (⟨1, 0, 1, 4, [7]⟩ : CacheEntry))] "k" 5 =
        Except.error (ClachelessErrorKind.NotFound.error_with_msg
          ("No entry for " ++ "k" ++ ".")) :=
  ⟨((localCache_get_spec [("k", ⟨1, 0, 1, 10, [7]⟩)] "k" 5).1 [7]).mpr
      ⟨⟨1, 0, 1, 10, [7]⟩, by decide, by decide, rfl⟩,
    (localCache_get_spec [("k", ⟨1, 0, 1, 4, [7]⟩)] "k" 5).2.1
      ⟨1, 0, 1, 4, [7]⟩ (by decide) (by decide)⟩

/-- C10: `LocalCache::put` returns `Ok(())` on every input — also when the
incumbent entry is as new or newer and the write is silently discarded — and
`DistributedCache::put_bytes` (whose broadcast errors are discarded) returns
exactly that result, so a caller cannot distinguish an applied write from a
discarded one. -/
theorem put_always_ok :
    (∀ (c : LocalCache) (k : String) (v : List Nat) (t o s x : Nat),
        ∃ c', LocalCache.put c k v t o s x = Except.ok c') ∧
    (∀ (c : LocalCache) (k : String) (v : List Nat) (t o s x : Nat)
        (eold : CacheEntry), mapLookup k c = some eold →
        ¬ eold.this_update_micros < t →
        LocalCache.put c k v t o s x = Except.ok c) ∧
    (∀ (c : LocalCache) (k : String) (v : List Nat) (nid seq now ttl : Nat),
        ∃ c', DistributedCache.put_bytes c k v nid seq now ttl = Except.ok c') ∧
    (∀ (c : LocalCache) (k : String) (v : List Nat) (nid seq now ttl : Nat)
        (eold : CacheEntry), mapLookup k c = some eold →
        ¬ eold.this_update_micros < now →
        DistributedCache.put_bytes c k v nid seq now ttl = Except.ok c) := by
  refine ⟨fun c k v t o s x => ⟨_, rfl⟩, fun c k v t o s x eold h hge => ?_,
    fun c k v nid seq now ttl => ⟨_, rfl⟩,
    fun c k v nid seq now ttl eold h hge => ?_⟩
  · unfold LocalCache.put
    rw [compareInsert_of_stale c k _ eold h hge]
  · unfold DistributedCache.put_bytes LocalCache.put
    rw [compareInsert_of_stale c k _ eold h hge]

/-- Witness for `put_always_ok`: a stale write (same timestamp) is accepted
with `Ok` and leaves the cache unchanged. -/
theorem put_always_ok_witness :
    LocalCache.put [("k", (⟨5, 0, 1, 10, [1]⟩ : CacheEntry))] "k" [2] 5 0 2 10 =
        Except.ok [("k", ⟨5, 0, 1, 10, [1]⟩)] ∧
      DistributedCache.put_bytes [("k", (⟨5, 0, 1, 10, [1]⟩ : CacheEntry))] "k"
          [2] 0 2 5 5 = Except.ok [("k", ⟨5, 0, 1, 10, [1]⟩)] :=
  ⟨put_always_ok.2.1 [("k", ⟨5, 0, 1, 10, [1]⟩)] "k" [2] 5 0 2 10
      ⟨5, 0, 1, 10, [1]⟩ (by decide) (by decide),
    put_always_ok.2.2.2 [("k", ⟨5, 0, 1, 10, [1]⟩)] "k" [2] 0 2 5 5
      ⟨5, 0, 1, 10, [1]⟩ (by decide) (by decide)⟩

/-! ## Ordered iteration for state transfer (`LocalCache::iter`) -/

/-- `LocalCache::iter` (`local_cache.rs` lines 93-130): collect the key and
`origin_node_update_seq` of every entry whose origin is in the provided
baseline map with `this_update_micros > baseline` and
`expires_micros > now`; sort those pairs by `origin_node_update_seq`
(ascending, `sort_by_key`); then look each key up again on demand and yield
the entry together with its key. -/
def iterForTransfer (c : LocalCache) (data_origin_id_and_baseline : List (Nat × Nat))
    (now : Nat) : List CacheEntryAndKey :=
  let key_by_update_seq :=
    (c.filter fun p =>
        match mapLookup p.2.origin_node_id data_origin_id_and_baseline with
        | some baseline =>
            decide (baseline < p.2.this_update_micros) &&
              decide (now < p.2.expires_micros)
        | none => false).map fun p => (p.1, p.2.origin_node_update_seq)
  let sorted := key_by_update_seq.mergeSort fun a b => decide (a.2 ≤ b.2)
  sorted.filterMap fun p =>
    (mapLookup p.1 c).map fun e => CacheEntryAndKey.mk p.1 e

theorem mapLookup_of_mem {α β : Type} [DecidableEq α] (c : List (α × β))
    (hnd : (c.map Prod.fst).Nodup) (p : α × β) (hp : p ∈ c) :
    mapLookup p.1 c = some p.2 := by
  induction c with
  | nil => simp at hp
  | cons q rest ih =>
      rw [List.map_cons, List.nodup_cons] at hnd
      rcases List.mem_cons.mp hp with hp' | hp'
      · subst hp'
        simp [mapLookup]
      · have hne : ¬ q.1 = p.1 := by
          intro he
          exact hnd.1 (by rw [he]; exact List.mem_map_of_mem Prod.fst hp')
        simp [mapLookup, hne, ih hnd.2 hp']

theorem filterMap_lookup_map (c : LocalCache) :
    ∀ l : List (String × CacheEntry), (∀ p ∈ l, mapLookup p.1 c = some p.2) →
      ((l.map fun p => (p.1, p.2.origin_node_update_seq)).filterMap fun p =>
          (mapLookup p.1 c).map fun e => CacheEntryAndKey.mk p.1 e) =
        l.map fun p => CacheEntryAndKey.mk p.1 p.2 := by
  intro l
  induction l with
  | nil => intro _; rfl
  | cons p rest ih =>
      intro h
      have hp := h p (List.mem_cons_self p rest)
      simp only [List.map_cons, List.filterMap_cons, hp, Option.map_some']
      rw [ih fun q hq => h q (List.mem_cons_of_mem _ hq)]

theorem iter_core (c : LocalCache) (hnd : (c.map Prod.fst).Nodup)
    (P : String × CacheEntry → Bool) :
    ((((c.filter P).map fun p => (p.1, p.2.origin_node_update_seq)).mergeSort
        fun a b => decide (a.2 ≤ b.2)).filterMap fun p =>
          (mapLookup p.1 c).map fun e => CacheEntryAndKey.mk p.1 e).Perm
        ((c.filter P).map fun p => CacheEntryAndKey.mk p.1 p.2) ∧
      ((((c.filter P).map fun p => (p.1, p.2.origin_node_update_seq)).mergeSort
        fun a b => decide (a.2 ≤ b.2)).filterMap fun p =>
          (mapLookup p.1 c).map fun e => CacheEntryAndKey.mk p.1 e).Pairwise
        fun a b => a.ce.origin_node_update_seq ≤ b.ce.origin_node_update_seq := by
  have hlook : ∀ p ∈ c.filter P, mapLookup p.1 c = some p.2 := fun p hp =>
    mapLookup_of_mem c hnd p (List.mem_of_mem_filter hp)
  have hperm : ((((c.filter P).map fun p => (p.1, p.2.origin_node_update_seq)).mergeSort
      fun a b => decide (a.2 ≤ b.2))).Perm
        ((c.filter P).map fun p => (p.1, p.2.origin_node_update_seq)) :=
    List.mergeSort_perm _ _
  constructor
  · have h2 := hperm.filterMap fun p =>
      (mapLookup p.1 c).map fun e => CacheEntryAndKey.mk p.1 e
    rwa [filterMap_lookup_map c _ hlook] at h2
  · rw [List.pairwise_filterMap]
    have hs := @List.sorted_mergeSort (String × Nat)
      (fun a b => decide (a.2 ≤ b.2))
      (fun a b d hab hbd => by
        simp only [decide_eq_true_eq] at *
        omega)
      (fun a b => by simpa using Nat.le_total a.2 b.2)
      ((c.filter P).map fun p => (p.1, p.2.origin_node_update_seq))
    refine hs.imp_of_mem ?_
    intro a b ha hb hab x hx y hy
    obtain ⟨p, hpfl, hgp⟩ := List.mem_map.mp (hperm.mem_iff.mp ha)
    obtain ⟨q, hqfl, hgq⟩ := List.mem_map.mp (hperm.mem_iff.mp hb)
    subst hgp
    subst hgq
    simp only [Option.mem_def, Option.map_eq_some'] at hx hy
    obtain ⟨ex, hex, hxe⟩ := hx
    obtain ⟨ey, hey, hye⟩ := hy
    rw [hlook p hpfl] at hex
    rw [hlook q hqfl] at hey
    injection hex with hex
    injection hey with hey
    subst hex
    subst hey
    subst hxe
    subst hye
    simpa using hab

/-- C5: for every cache state and baseline map, `iter` yields exactly the
entries `e` with `e.origin_node_id` present in the map,
`e.this_update_micros > baseline` and `e.expires_micros > now` (entries whose
origin is absent are skipped, and no entry with `expires_micros <= now` is
yielded), and the yielded sequence is ordered by `origin_node_update_seq` in
non-decreasing order.  The cache's keys are unique (`SkipMap` invariant). -/
theorem iter_for_transfer_spec (c : LocalCache) (m : List (Nat × Nat)) (now : Nat)
    (hnd : (c.map Prod.fst).Nodup) :
    (iterForTransfer c m now).Perm
        ((c.filter fun p =>
            match mapLookup p.2.origin_node_id m with
            | some baseline =>
                decide (baseline < p.2.this_update_micros) &&
                  decide (now < p.2.expires_micros)
            | none => false).map fun p => CacheEntryAndKey.mk p.1 p.2) ∧
      (iterForTransfer c m now).Pairwise
        fun a b => a.ce.origin_node_update_seq ≤ b.ce.origin_node_update_seq :=
  iter_core c hnd _

/-- Witness for `iter_for_transfer_spec` on a two-entry cache whose entries
arrive out of sequence order. -/
theorem iter_for_transfer_witness :
    (iterForTransfer
        [("a", ⟨5, 1, 2, 10, [1]⟩), ("b", ⟨6, 1, 1, 10, [2]⟩)] [(1, 4)] 3).Perm
        (([("a", (⟨5, 1, 2, 10, [1]⟩ : CacheEntry)),
            ("b", ⟨6, 1, 1, 10, [2]⟩)].filter fun p =>
            match mapLookup p.2.origin_node_id [(1, 4)] with
            | some baseline =>
                decide (baseline < p.2.this_update_micros) &&
                  decide (3 < p.2.expires_micros)
            | none => false).map fun p => CacheEntryAndKey.mk p.1 p.2) ∧
      (iterForTransfer
        [("a", ⟨5, 1, 2, 10, [1]⟩), ("b", ⟨6, 1, 1, 10, [2]⟩)] [(1, 4)] 3).Pairwise
        fun a b => a.ce.origin_node_update_seq ≤ b.ce.origin_node_update_seq :=
  iter_for_transfer_spec [("a", ⟨5, 1, 2, 10, [1]⟩), ("b", ⟨6, 1, 1, 10, [2]⟩)]
    [(1, 4)] 3 (by decide)

/-! ## Cluster state view (src/distributed_cache/cluster_view.rs) -/

/-- `ClusterStateView::get_out_of_sync_node_id_and_baselines`
(`cluster_view.rs` lines 68-96): iterate over the received view; skip the
local node id; for a node with a known `NodeView` include
`(id, local_baseline)` iff `local_baseline < pushed_baseline`; for a node
without a `NodeView` include `(id, 0)`.  `views` models
`other_nodes_update_seqs` as a map from node id to that node's `NodeView`
baseline. -/
def getOutOfSyncNodeIdAndBaselines (local_node_id : Nat)
    (views : List (Nat × Nat)) (view : List (Nat × Nat)) : List (Nat × Nat) :=
  view.foldl
    (fun ret p =>
      if p.1 = local_node_id then ret
      else
        match mapLookup p.1 views with
        | some other_baseline =>
            if other_baseline < p.2 then ret ++ [(p.1, other_baseline)] else ret
        | none => ret ++ [(p.1, 0)])
    []

/-- `ClusterStateView::as_map` (`cluster_view.rs` lines 52-64): the local
`(node_id, current_sequence)` pair when the local sequence has ever issued a
value (`has_been_pulled`, i.e. `0 < local_seq`), plus every known remote
node's baseline.  Later `HashMap` inserts win, so the remote pairs precede
the local pair in the association-list model. -/
def asMap (local_node_id local_seq : Nat) (views : List (Nat × Nat)) :
    List (Nat × Nat) :=
  views ++ (if 0 < local_seq then [(local_node_id, local_seq)] else [])

/-- The contribution of a single `view` pair to the diff result. -/
def diffStep (local_node_id : Nat) (views : List (Nat × Nat)) (p : Nat × Nat) :
    List (Nat × Nat) :=
  if p.1 = local_node_id then []
  else
    match mapLookup p.1 views with
    | some other_baseline =>
        if other_baseline < p.2 then [(p.1, other_baseline)] else []
    | none => [(p.1, 0)]

theorem foldl_append_eq {α β : Type} (g : α → List β) :
    ∀ (l : List α) (acc : List β),
      l.foldl (fun ret p => ret ++ g p) acc = acc ++ l.flatMap g := by
  intro l
  induction l with
  | nil => intro acc; simp
  | cons p rest ih =>
      intro acc
      rw [List.foldl_cons, ih, List.flatMap_cons, List.append_assoc]

theorem getOutOfSync_eq_flatMap (lid : Nat) (views view : List (Nat × Nat)) :
    getOutOfSyncNodeIdAndBaselines lid views view =
      view.flatMap (diffStep lid views) := by
  unfold getOutOfSyncNodeIdAndBaselines
  have hfun : (fun (ret : List (Nat × Nat)) (p : Nat × Nat) =>
      if p.1 = lid then ret
      else
        match mapLookup p.1 views with
        | some other_baseline =>
            if other_baseline < p.2 then ret ++ [(p.1, other_baseline)] else ret
        | none => ret ++ [(p.1, 0)]) =
      fun ret p => ret ++ diffStep lid views p := by
    funext ret p
    unfold diffStep
    by_cases h1 : p.1 = lid
    · simp [h1]
    · simp only [if_neg h1]
      cases hm : mapLookup p.1 views with
      | none => rfl
      | some ob =>
          by_cases h2 : ob < p.2 <;> simp [h2]
  rw [hfun, foldl_append_eq]
  simp

theorem mem_of_mapLookup {α β : Type} [DecidableEq α] :
    ∀ (l : List (α × β)) (k : α) (v : β), mapLookup k l = some v → (k, v) ∈ l := by
  intro l
  induction l with
  | nil => intro k v h; exact Option.noConfusion h
  | cons p rest ih =>
      intro k v h
      simp only [mapLookup] at h
      by_cases hp : p.1 = k
      · rw [if_pos hp] at h
        injection h with h
        subst h
        subst hp
        exact List.mem_cons_self _ _
      · rw [if_neg hp] at h
        exact List.mem_cons_of_mem _ (ih k v h)

/-- C6: the claim asserts `diff` contains `(id, local_baseline)` only when
`local_baseline < v[id]`, with `local_baseline = 0` if no `NodeView` exists.
This fails for an unknown node pushed with baseline `0`: the code
unconditionally requests a state transfer from every unknown node, even
though `0 < 0` is false. -/
theorem diff_includes_unknown_zero_counterexample :
    (2, 0) ∈ getOutOfSyncNodeIdAndBaselines 1 [] [(2, 0)] ∧
      mapLookup 2 ([] : List (Nat × Nat)) = none ∧ ¬ (0 : Nat) < 0 := by
  refine ⟨?_, rfl, by omega⟩
  decide

/-- C6 (amended): `diff(v)` contains exactly the pairs `(id, lb)` with `id`
in `v` and `id ≠ local_node_id` such that either a local `NodeView` for `id`
exists with baseline `lb` and `lb < v[id]`, or no `NodeView` for `id` exists
and `lb = 0` (an unknown node is always included, its pushed baseline
notwithstanding); in particular the result never contains `local_node_id`,
and never contains a *known* node whose local baseline is `≥` the pushed
baseline. -/
theorem diff_spec (lid : Nat) (views view : List (Nat × Nat))
    (hnd : (view.map Prod.fst).Nodup) (id lb : Nat) :
    (id, lb) ∈ getOutOfSyncNodeIdAndBaselines lid views view ↔
      id ≠ lid ∧ ∃ rb, mapLookup id view = some rb ∧
        ((∃ b, mapLookup id views = some b ∧ b < rb ∧ lb = b) ∨
          (mapLookup id views = none ∧ lb = 0)) := by
  rw [getOutOfSync_eq_flatMap, List.mem_flatMap]
  constructor
  · rintro ⟨p, hp, hmem⟩
    unfold diffStep at hmem
    by_cases h1 : p.1 = lid
    · simp [h1] at hmem
    · rw [if_neg h1] at hmem
      have hview : mapLookup p.1 view = some p.2 := mapLookup_of_mem view hnd p hp
      cases hm : mapLookup p.1 views with
      | none =>
          rw [hm] at hmem
          simp only [List.mem_singleton, Prod.mk.injEq] at hmem
          obtain ⟨hid, hlb⟩ := hmem
          subst hid
          subst hlb
          exact ⟨h1, p.2, hview, Or.inr ⟨hm, rfl⟩⟩
      | some ob =>
          rw [hm] at hmem
          by_cases h2 : ob < p.2
          · simp only [h2, if_true, List.mem_singleton, Prod.mk.injEq] at hmem
            obtain ⟨hid, hlb⟩ := hmem
            subst hid
            exact ⟨h1, p.2, hview, Or.inl ⟨ob, hm, h2, hlb⟩⟩
          · simp [h2] at hmem
  · rintro ⟨hne, rb, hrb, hcase⟩
    refine ⟨(id, rb), mem_of_mapLookup view id rb hrb, ?_⟩
    unfold diffStep
    rw [if_neg hne]
    rcases hcase with ⟨b, hb, hblt, hlb⟩ | ⟨hnone, hlb⟩
    · rw [hb]
      simp [hblt, hlb]
    · rw [hnone]
      simp [hlb]

/-- Witness for `diff_spec`: a known node with local baseline `1` and pushed
baseline `3` is included with its local baseline. -/
theorem diff_spec_witness :
    (2, 1) ∈ getOutOfSyncNodeIdAndBaselines 7 [(2, 1)] [(2, 3)] :=
  (diff_spec 7 [(2, 1)] [(2, 3)] (by decide) 2 1).mpr
    ⟨by omega, 3, rfl, Or.inl ⟨1, rfl, by omega, rfl⟩⟩

/-- C8: feeding the snapshot produced by `as_map()` back into `diff()` on the
same replica yields the empty map: the local pair is skipped as
authoritative, and every remote pair compares equal to its own baseline. -/
theorem diff_asMap_empty (lid lseq : Nat) (views : List (Nat × Nat))
    (hnd : (views.map Prod.fst).Nodup) :
    getOutOfSyncNodeIdAndBaselines lid views (asMap lid lseq views) = [] := by
  rw [getOutOfSync_eq_flatMap]
  rw [List.flatMap_eq_nil_iff]
  intro p hp
  unfold asMap at hp
  rcases List.mem_append.mp hp with hp | hp
  · unfold diffStep
    by_cases h1 : p.1 = lid
    · rw [if_pos h1]
    · rw [if_neg h1, mapLookup_of_mem views hnd p hp]
      simp
  · have hlocal : p.1 = lid := by
      by_cases h : 0 < lseq
      · rw [if_pos h, List.mem_singleton] at hp
        rw [hp]
      · rw [if_neg h] at hp
        exact absurd hp (List.not_mem_nil p)
    unfold diffStep
    rw [if_pos hlocal]

/-- Witness for `diff_asMap_empty` on a replica with one issued local write
and one known remote node. -/
theorem diff_asMap_empty_witness :
    getOutOfSyncNodeIdAndBaselines 1 [(2, 3)] (asMap 1 2 [(2, 3)]) = [] :=
  diff_asMap_empty 1 2 [(2, 3)] (by decide)

/-! ## Peer authenticator (src/distributed_cache/peer_authenticator.rs) -/

/-- `PeerAuthenticator::TOKEN_VALIDITY`: one second in microseconds. -/
def TOKEN_VALIDITY : Nat := 1000000

/-- Wrapping `u64` subtraction `a - b` (release-mode Rust semantics). -/
def u64_wrapping_sub (a b : Nat) : Nat :=
  (a + U64_LIMIT - b % U64_LIMIT) % U64_LIMIT

/-- `u64::to_be_bytes` generalised to `k` big-endian bytes. -/
def natToBeBytes : Nat → Nat → List Nat
  | 0, _ => []
  | k + 1, n => natToBeBytes k (n / 256) ++ [n % 256]

/-- `u64::from_be_bytes`. -/
def natFromBeBytes (bs : List Nat) : Nat := bs.foldl (fun a b => a * 256 + b) 0

/-- `PeerAuthenticator::create_token` (`peer_authenticator.rs` lines 90-99)
at the byte level (the final base64url-no-pad encoding is a bijection
between byte strings and their encodings, so tokens are modelled by their
decoded bytes): eight big-endian bytes of the current time followed by the
HMAC-SHA3-256 over those eight bytes.  `macFn` abstracts `create_mac` with
the shared secret (the external `tyst` library). -/
def create_token_bytes (macFn : List Nat → List Nat) (now_micros : Nat) :
    List Nat :=
  natToBeBytes 8 now_micros ++ macFn (natToBeBytes 8 now_micros)

/-- `PeerAuthenticator::is_token_valid` (`peer_authenticator.rs` lines
102-113) on the decoded bytes (`decode_url(..).unwrap_or_default()` maps
undecodable input to the empty vector and never panics).  An empty decode
returns `false`.  A decode of 1 to 7 bytes panics:
`time_bytes.copy_from_slice(&time_and_mac[0..8])` indexes past the end;
modelled as `none`.  Otherwise the recomputed MAC must equal the trailing
bytes and `ts_micros > now - TOKEN_VALIDITY` must hold, where the
subtraction is a wrapping `u64` subtraction. -/
def is_token_valid (macFn : List Nat → List Nat) (now_micros : Nat)
    (time_and_mac : List Nat) : Option Bool :=
  if time_and_mac.isEmpty then some false
  else if time_and_mac.length < 8 then none
  else
    some (decide (macFn (time_and_mac.take 8) = time_and_mac.drop 8) &&
      decide (u64_wrapping_sub now_micros TOKEN_VALIDITY <
        natFromBeBytes (time_and_mac.take 8)))

/-- C7: the claim asserts `is_token_valid` evaluates without panicking on
every input and returns `false` on short decodes.  The code instead panics
(`copy_from_slice` of the out-of-range slice `[0..8]`) whenever the token
decodes to 1 to 7 bytes — e.g. the token `"AA"`, which base64url-decodes to
the single byte `0x00` — while the empty decode is rejected with `false`. -/
theorem is_token_valid_short_token_panics (macFn : List Nat → List Nat)
    (now : Nat) :
    is_token_valid macFn now [0] = none ∧
      is_token_valid macFn now [] = some false :=
  ⟨rfl, rfl⟩

theorem natToBeBytes_length (k : Nat) : ∀ n, (natToBeBytes k n).length = k := by
  induction k with
  | zero => intro n; rfl
  | succ k ih =>
      intro n
      simp [natToBeBytes, ih]

theorem natFromBeBytes_append (l : List Nat) (b : Nat) :
    natFromBeBytes (l ++ [b]) = natFromBeBytes l * 256 + b := by
  unfold natFromBeBytes
  rw [List.foldl_append]
  rfl

theorem natToBeBytes_roundtrip :
    ∀ (k n : Nat), n < 256 ^ k → natFromBeBytes (natToBeBytes k n) = n := by
  intro k
  induction k with
  | zero =>
      intro n h
      simp only [pow_zero, Nat.lt_one_iff] at h
      subst h
      rfl
  | succ k ih =>
      intro n h
      show natFromBeBytes (natToBeBytes k (n / 256) ++ [n % 256]) = n
      rw [natFromBeBytes_append, ih (n / 256) (by rw [pow_succ] at h; omega)]
      omega

/-- C9: the claim asserts every token minted at `T` verifies at any `T'`
with `T' - T < 1 s`.  This fails within the first second after the epoch:
minted and checked at `T = T' = 0`, the wrapping `u64` subtraction
`now - TOKEN_VALIDITY` wraps to `2^64 - 10^6`, `ts > now - VALIDITY` is
false, and verification answers `false` (a debug build would panic on the
underflow instead). -/
theorem token_mint_verify_at_epoch_counterexample :
    (0 - 0 < TOKEN_VALIDITY) ∧
      is_token_valid (fun _ => List.replicate 32 0) 0
        (create_token_bytes (fun _ => List.replicate 32 0) 0) = some false := by
  constructor
  · decide
  · rfl

/-- C9 (amended): for every token minted by `create_token` at time `T`,
verification with the same secret at any time `T'` with `T ≤ T'` and
`T' - T < 1 s` returns `true`, provided `T'` is at least one second past the
epoch (below that the wrapping `u64` subtraction defeats the check) and `T'`
is a `u64` value. -/
theorem token_mint_verify_roundtrip (macFn : List Nat → List Nat) (T Tp : Nat)
    (h1 : T ≤ Tp) (h2 : Tp < T + TOKEN_VALIDITY) (h3 : TOKEN_VALIDITY ≤ Tp)
    (h4 : Tp < U64_LIMIT) :
    is_token_valid macFn Tp (create_token_bytes macFn T) = some true := by
  have hlen : (natToBeBytes 8 T).length = 8 := natToBeBytes_length 8 T
  have htake : (natToBeBytes 8 T ++ macFn (natToBeBytes 8 T)).take 8 =
      natToBeBytes 8 T := List.take_left' hlen
  have hdrop : (natToBeBytes 8 T ++ macFn (natToBeBytes 8 T)).drop 8 =
      macFn (natToBeBytes 8 T) := List.drop_left' hlen
  have hU : U64_LIMIT = 18446744073709551616 := by norm_num [U64_LIMIT]
  have hV : TOKEN_VALIDITY = 1000000 := rfl
  rw [hU] at h4
  rw [hV] at h2 h3
  have hround : natFromBeBytes (natToBeBytes 8 T) = T := by
    apply natToBeBytes_roundtrip
    have h256 : (256 : Nat) ^ 8 = 18446744073709551616 := by norm_num
    omega
  have hsub : u64_wrapping_sub Tp TOKEN_VALIDITY = Tp - 1000000 := by
    unfold u64_wrapping_sub
    rw [hU, hV]
    omega
  have hne1 : ¬ ((natToBeBytes 8 T ++ macFn (natToBeBytes 8 T)).isEmpty = true) := by
    rw [List.isEmpty_eq_true, List.append_eq_nil]
    intro hcon
    rw [hcon.1] at hlen
    simp at hlen
  have hne2 : ¬ ((natToBeBytes 8 T ++ macFn (natToBeBytes 8 T)).length < 8) := by
    rw [List.length_append, hlen]
    omega
  unfold is_token_valid create_token_bytes
  rw [if_neg hne1, if_neg hne2, htake, hdrop, hround, hsub,
    decide_eq_true (show macFn (natToBeBytes 8 T) = macFn (natToBeBytes 8 T) from rfl),
    decide_eq_true (show Tp - 1000000 < T by omega)]
  rfl

/-- Witness for `token_mint_verify_roundtrip`: a token minted exactly one
second past the epoch verifies immediately. -/
theorem token_mint_verify_roundtrip_witness :
    is_token_valid (fun _ => [0]) 1000000
        (create_token_bytes (fun _ => [0]) 1000000) = some true :=
  token_mint_verify_roundtrip (fun _ => [0]) 1000000 1000000 (le_refl _)
    (by decide) (by decide) (by decide)
